import Mathlib

/-!
Verification of the duplicate-file finder (`find_duplicates.py`).

The program is embedded shallowly.  A directory walk is modelled by the
list of regular files it yields, in traversal order; each file carries its
path, its byte content, and two flags recording whether the two fallible
filesystem operations the program performs on it (`os.path.getsize`, and
opening/reading the file while hashing) succeed.  Python's
insertion-ordered `dict` / `defaultdict(list)` is modelled by an
association list in key-insertion order.  The MD5 digest is abstracted as
a function `md5 : List Byte → String` of the byte sequence fed to the
hasher; the chunked reading loop of `hash_file` is modelled exactly, so
that what is fed to the digest is derived from the code, not assumed.
-/

set_option autoImplicit false

namespace FindDuplicates

/-- Bytes are modelled as natural numbers. -/
abbrev Byte := Nat

/-- A regular file yielded by the directory walk (`os.walk` plus the
`os.path.isfile` check, lines 31-34): its full path, its byte content,
whether `os.path.getsize` succeeds on it (`statOk`), and whether opening
and reading it during hashing succeeds (`readOk`). -/
structure FSFile where
  path : String
  content : List Byte
  statOk : Bool
  readOk : Bool
deriving DecidableEq, Repr

/-- `os.path.getsize`: the byte size of a file. -/
def fileSize (f : FSFile) : Nat := f.content.length

/-- The successive non-empty buffers returned by `f.read(block_size)` in
`hash_file` (lines 8-12): chunks of at most `block_size` bytes, until a
read returns the empty buffer.  With `block_size = 0` every read returns
the empty buffer at once and the loop body never runs. -/
def readChunks (content : List Byte) (block_size : Nat) : List (List Byte) :=
  if h1 : block_size = 0 then []
  else if h2 : content.isEmpty then []
  else content.take block_size :: readChunks (content.drop block_size) block_size
termination_by content.length
decreasing_by
  have hne : content ≠ [] := by simpa using h2
  have hpos : 0 < content.length := List.length_pos.mpr hne
  have hbs : 0 < block_size := Nat.pos_of_ne_zero h1
  simp only [List.length_drop]
  omega

/-- `hash_file` (lines 5-13): feeds the file to `hasher.update` chunk by
chunk and returns the digest.  The digest of an `hashlib` hasher depends
only on the concatenation of all bytes fed to `update`; that digest
function is the parameter `md5`. -/
def hash_file (md5 : List Byte → String) (content : List Byte) (block_size : Nat) : String :=
  md5 (readChunks content block_size).flatten

/-- `defaultdict(list)` append: `m[k].append(x)` on an insertion-ordered
mapping modelled as an association list in key-insertion order. -/
def addToBucket {κ α : Type} [DecidableEq κ] (m : List (κ × List α)) (k : κ) (x : α) :
    List (κ × List α) :=
  match m with
  | [] => [(k, [x])]
  | (k0, xs) :: rest =>
    if k = k0 then (k0, xs ++ [x]) :: rest
    else (k0, xs) :: addToBucket rest k x

/-- Dictionary lookup: the list stored at key `k`, `[]` when absent. -/
def bucketGet {κ α : Type} [DecidableEq κ] (m : List (κ × List α)) (k : κ) : List α :=
  match m with
  | [] => []
  | (k0, xs) :: rest => if k = k0 then xs else bucketGet rest k

/-- The body of the first loop (lines 32-40): record a walked file under
its size, skipping it (with a warning) when the size stat fails. -/
def sizeStep (m : List (Nat × List String)) (f : FSFile) : List (Nat × List String) :=
  if f.statOk then addToBucket m (fileSize f) f.path else m

/-- First pass of `find_duplicates` (lines 31-40): group the walked files
by byte size. -/
def sizePass (fs : List FSFile) : List (Nat × List String) :=
  fs.foldl sizeStep []

/-- Re-opening a path during the second pass: the file the (unchanged)
tree holds at that path. -/
def lookupFile (fs : List FSFile) (p : String) : Option FSFile :=
  fs.find? (fun f => f.path == p)

/-- The body of the inner hashing loop (lines 45-51): hash one path with
`hash_file` at the default block size 65536 and append the path to the
bucket of its digest, skipping it (with a warning) when the open or the
read raises. -/
def hashStep (md5 : List Byte → String) (fs : List FSFile)
    (d2 : List (String × List String)) (p : String) : List (String × List String) :=
  match lookupFile fs p with
  | some f => if f.readOk then addToBucket d2 (hash_file md5 f.content 65536) p else d2
  | none => d2

/-- The body of the outer hashing loop (lines 43-51): hash the members of
one size bucket, but only when the bucket has more than one path. -/
def bucketStep (md5 : List Byte → String) (fs : List FSFile)
    (d : List (String × List String)) (kv : Nat × List String) :
    List (String × List String) :=
  if 1 < kv.2.length then kv.2.foldl (hashStep md5 fs) d else d

/-- Second pass of `find_duplicates` (lines 43-51): for every size bucket
with more than one path, hash each member and group the paths by digest. -/
def hashPass (md5 : List Byte → String) (fs : List FSFile)
    (buckets : List (Nat × List String)) : List (String × List String) :=
  buckets.foldl (bucketStep md5 fs) []

/-- `find_duplicates` (lines 15-56): size grouping, hashing of buckets
with more than one path, and the final filter keeping only digests shared
by more than one path. -/
def find_duplicates (md5 : List Byte → String) (fs : List FSFile) :
    List (String × List String) :=
  (hashPass md5 fs (sizePass fs)).filter (fun kv => decide (1 < kv.2.length))

/-- The fatal error for a missing or non-directory root (spec §7). -/
inductive ScanError where
  | NotFoundError
deriving DecidableEq, Repr

/-- A scan target: whether the root is a directory (`os.path.isdir`,
line 64) and, when it is, the regular files a walk of it yields, in
traversal order. -/
structure DirTree where
  rootIsDir : Bool
  files : List FSFile

/-- The guarded entry point (`main`, lines 64-70): a root that is not a
directory is rejected up front and `find_duplicates` is never entered. -/
def scan (md5 : List Byte → String) (t : DirTree) :
    Except ScanError (List (String × List String)) :=
  if t.rootIsDir then Except.ok (find_duplicates md5 t.files)
  else Except.error ScanError.NotFoundError

/-- The group of paths the returned mapping holds at digest `h`. -/
def groupOf (out : List (String × List String)) (h : String) : List String :=
  bucketGet out h

/-- The key/element stream the first pass feeds to the size dictionary:
one `(size, path)` pair per stat-able file, in traversal order. -/
def sizeStream (fs : List FSFile) : List (Nat × String) :=
  fs.filterMap (fun f => if f.statOk then some (fileSize f, f.path) else none)

/-- The `(digest, path)` pairs one size bucket feeds to the duplicates
dictionary: one pair per readable member, in bucket order. -/
def bucketStream (md5 : List Byte → String) (fs : List FSFile) (paths : List String) :
    List (String × String) :=
  paths.filterMap (fun p =>
    match lookupFile fs p with
    | some f => if f.readOk then some (hash_file md5 f.content 65536, p) else none
    | none => none)

/-- The full `(digest, path)` stream the second pass feeds to the
duplicates dictionary, bucket by bucket. -/
def hashStream (md5 : List Byte → String) (fs : List FSFile) :
    List (Nat × List String) → List (String × String)
  | [] => []
  | kv :: rest =>
    (if 1 < kv.2.length then bucketStream md5 fs kv.2 else []) ++ hashStream md5 fs rest

/-- The paths on which the second pass invokes `hash_file`: every member
of every size bucket with more than one path (lines 44-47). -/
def hashCalls : List (Nat × List String) → List String
  | [] => []
  | kv :: rest => (if 1 < kv.2.length then kv.2 else []) ++ hashCalls rest

/-- Folding a `(key, element)` stream into a dictionary with
`addToBucket`; both passes are instances of this. -/
def recordAll {κ α : Type} [DecidableEq κ] (d : List (κ × List α)) :
    List (κ × α) → List (κ × List α)
  | [] => d
  | kx :: rest => recordAll (addToBucket d kx.1 kx.2) rest

/-- The paths of the stat-able files of size `s`, in traversal order. -/
def sizeBucketPaths (fs : List FSFile) (s : Nat) : List String :=
  (fs.filter (fun f => f.statOk && (fileSize f == s))).map FSFile.path

/-- How many stat-able files of size `s` the walk yields. -/
def countSize (fs : List FSFile) (s : Nat) : Nat :=
  (fs.filter (fun f => f.statOk && (fileSize f == s))).length

/-- The digest the second pass computes for a file. -/
def digestOf (md5 : List Byte → String) (f : FSFile) : String :=
  hash_file md5 f.content 65536

/-- Whether a file contributes a `(digest, path)` pair to the duplicates
dictionary: it is stat-able, readable, and its size bucket has at least
two members. -/
def isContributor (md5 : List Byte → String) (fs : List FSFile) (f : FSFile) : Bool :=
  f.statOk && f.readOk && decide (1 < countSize fs (fileSize f))

/-- How many files contribute digest `h` to the duplicates dictionary. -/
def countHash (md5 : List Byte → String) (fs : List FSFile) (h : String) : Nat :=
  (fs.filter (fun f => isContributor md5 fs f && (digestOf md5 f == h))).length

/-- The size the tree records at path `p`, when the path is stat-able at
all. -/
def sizeOfPath (fs : List FSFile) (p : String) : Option Nat :=
  (lookupFile fs p).map fileSize

/-- The paths of the files contributing digest `h` to the duplicates
dictionary, in traversal order. -/
def contributorPaths (md5 : List Byte → String) (fs : List FSFile) (h : String) :
    List String :=
  (fs.filter (fun f => isContributor md5 fs f && (digestOf md5 f == h))).map FSFile.path

/-! ### The chunked reading loop of hash_file -/

/-- The chunks read by `hash_file` reassemble to the whole content, for
every positive block size. -/
theorem readChunks_flatten (block_size : Nat) (hb : block_size ≠ 0) :
    ∀ content : List Byte, (readChunks content block_size).flatten = content := by
  intro content
  generalize hn : content.length = n
  induction n using Nat.strong_induction_on generalizing content with
  | _ n ih =>
    rw [readChunks, dif_neg hb]
    by_cases h2 : content.isEmpty
    · rw [dif_pos h2]
      simp [List.isEmpty_iff.mp h2]
    · rw [dif_neg h2]
      have hne : content ≠ [] := by simpa using h2
      have hpos : 0 < content.length := List.length_pos.mpr hne
      have hlt : (content.drop block_size).length < n := by
        subst hn
        simp only [List.length_drop]
        have hbs : 0 < block_size := Nat.pos_of_ne_zero hb
        omega
      simp only [List.flatten_cons]
      rw [ih _ hlt _ rfl, List.take_append_drop]

/-- `hash_file` at any positive block size is the digest of the whole
content. -/
theorem hash_file_eq (md5 : List Byte → String) (content : List Byte) (block_size : Nat)
    (hb : block_size ≠ 0) : hash_file md5 content block_size = md5 content := by
  unfold hash_file
  rw [readChunks_flatten block_size hb content]

/-- `hash_file` at the default block size used by `find_duplicates`. -/
theorem hash_file_default (md5 : List Byte → String) (content : List Byte) :
    hash_file md5 content 65536 = md5 content :=
  hash_file_eq md5 content 65536 (by decide)

/-- Claim C9: for every file content and every block size greater than 0,
the chunked reading loop of `hash_file` computes exactly the digest of the
file's full byte content, so the result is independent of the chosen
block size. -/
theorem claim_C9 (md5 : List Byte → String) (content : List Byte) (b1 b2 : Nat)
    (h1 : 0 < b1) (h2 : 0 < b2) :
    hash_file md5 content b1 = md5 content ∧
      hash_file md5 content b1 = hash_file md5 content b2 := by
  have e1 := hash_file_eq md5 content b1 (Nat.pos_iff_ne_zero.mp h1)
  have e2 := hash_file_eq md5 content b2 (Nat.pos_iff_ne_zero.mp h2)
  exact ⟨e1, e1.trans e2.symm⟩

/-- Witness for C9 at block sizes 3 and 7 on a 5-byte content. -/
theorem claim_C9_witness :
    0 < 3 ∧ 0 < 7 ∧
      hash_file (fun c => toString c.length) [1, 2, 3, 4, 5] 3 =
        hash_file (fun c => toString c.length) [1, 2, 3, 4, 5] 7 :=
  ⟨by decide, by decide,
    (claim_C9 (fun c => toString c.length) [1, 2, 3, 4, 5] 3 7 (by decide) (by decide)).2⟩

/-! ### Dictionary lemmas -/

/-- Reading any key after an `addToBucket`. -/
theorem bucketGet_addToBucket {κ α : Type} [DecidableEq κ]
    (m : List (κ × List α)) (k k' : κ) (x : α) :
    bucketGet (addToBucket m k x) k' =
      if k' = k then bucketGet m k' ++ [x] else bucketGet m k' := by
  induction m with
  | nil =>
    by_cases h : k' = k <;> simp [addToBucket, bucketGet, h]
  | cons kv rest ih =>
    obtain ⟨k0, xs⟩ := kv
    by_cases hk : k = k0
    · subst hk
      by_cases hk' : k' = k
      · subst hk'
        simp [addToBucket, bucketGet]
      · simp [addToBucket, bucketGet, hk']
    · by_cases hk' : k' = k0
      · subst hk'
        have hk2 : ¬(k' = k) := fun h => hk h.symm
        simp [addToBucket, bucketGet, hk, hk2]
      · simp [addToBucket, bucketGet, hk, hk', ih]

/-- The keys after an `addToBucket`: unchanged when the key is present,
appended otherwise. -/
theorem keys_addToBucket {κ α : Type} [DecidableEq κ]
    (m : List (κ × List α)) (k : κ) (x : α) :
    (addToBucket m k x).map Prod.fst =
      if k ∈ m.map Prod.fst then m.map Prod.fst else m.map Prod.fst ++ [k] := by
  induction m with
  | nil => simp [addToBucket]
  | cons kv rest ih =>
    obtain ⟨k0, xs⟩ := kv
    by_cases hk : k = k0 <;> simp_all [addToBucket] <;> split <;> simp_all

/-- `addToBucket` keeps the keys pairwise distinct. -/
theorem nodup_keys_addToBucket {κ α : Type} [DecidableEq κ]
    (m : List (κ × List α)) (k : κ) (x : α) (h : (m.map Prod.fst).Nodup) :
    ((addToBucket m k x).map Prod.fst).Nodup := by
  rw [keys_addToBucket]
  split
  · exact h
  · rename_i hk
    simp [List.nodup_append, h, hk]

/-- With pairwise distinct keys, membership determines the lookup. -/
theorem bucketGet_of_mem {κ α : Type} [DecidableEq κ]
    (m : List (κ × List α)) (k : κ) (xs : List α)
    (hnd : (m.map Prod.fst).Nodup) (hm : (k, xs) ∈ m) : bucketGet m k = xs := by
  induction m with
  | nil => cases hm
  | cons kv rest ih =>
    obtain ⟨k0, ys⟩ := kv
    rcases List.mem_cons.mp hm with heq | htail
    · obtain ⟨h1, h2⟩ := Prod.mk.injEq .. ▸ heq
      simp [bucketGet, h1, h2]
    · have hk0 : k ≠ k0 := by
        rintro rfl
        have : k ∈ rest.map Prod.fst := List.mem_map_of_mem Prod.fst htail
        simp_all
      have hrest : (rest.map Prod.fst).Nodup := (List.nodup_cons.mp hnd).2
      simp [bucketGet, hk0, ih hrest htail]

/-- A key with a non-empty lookup is present with that value. -/
theorem mem_of_bucketGet_ne_nil {κ α : Type} [DecidableEq κ]
    (m : List (κ × List α)) (k : κ) (h : bucketGet m k ≠ []) :
    (k, bucketGet m k) ∈ m := by
  induction m with
  | nil => simp [bucketGet] at h
  | cons kv rest ih =>
    obtain ⟨k0, ys⟩ := kv
    by_cases hk : k = k0
    · subst hk
      simp [bucketGet] at h ⊢
    · simp only [bucketGet, if_neg hk] at h ⊢
      exact List.mem_cons_of_mem _ (ih h)

/-- An absent key reads as the empty list. -/
theorem bucketGet_eq_nil {κ α : Type} [DecidableEq κ]
    (m : List (κ × List α)) (k : κ) (h : k ∉ m.map Prod.fst) : bucketGet m k = [] := by
  induction m with
  | nil => rfl
  | cons kv rest ih =>
    obtain ⟨k0, ys⟩ := kv
    simp only [List.map_cons, List.mem_cons, not_or] at h
    simp [bucketGet, h.1, ih h.2]

/-- Reading a key after recording a whole stream: the recorded elements
with that key are appended, in stream order. -/
theorem bucketGet_recordAll {κ α : Type} [DecidableEq κ] (l : List (κ × α)) :
    ∀ (d : List (κ × List α)) (k : κ),
      bucketGet (recordAll d l) k =
        bucketGet d k ++ (l.filter (fun kx => kx.1 == k)).map Prod.snd := by
  induction l with
  | nil => simp [recordAll]
  | cons kx rest ih =>
    intro d k
    rw [recordAll, ih, bucketGet_addToBucket]
    by_cases hk : kx.1 = k
    · simp [List.filter_cons, hk, List.append_assoc]
    · have : ¬(k = kx.1) := fun h => hk h.symm
      simp [List.filter_cons, hk, this]

/-- `recordAll` keeps the keys pairwise distinct. -/
theorem nodup_keys_recordAll {κ α : Type} [DecidableEq κ] (l : List (κ × α)) :
    ∀ d : List (κ × List α), (d.map Prod.fst).Nodup →
      ((recordAll d l).map Prod.fst).Nodup := by
  induction l with
  | nil => intro d h; exact h
  | cons kx rest ih =>
    intro d h
    exact ih _ (nodup_keys_addToBucket d kx.1 kx.2 h)

/-- Recording a concatenation of streams records them in sequence. -/
theorem recordAll_append {κ α : Type} [DecidableEq κ] (l1 l2 : List (κ × α)) :
    ∀ d : List (κ × List α), recordAll d (l1 ++ l2) = recordAll (recordAll d l1) l2 := by
  induction l1 with
  | nil => intro d; rfl
  | cons kx rest ih => intro d; simp [recordAll, ih]

/-! ### The two passes as recorded streams -/

/-- The first pass records exactly the `(size, path)` stream. -/
theorem sizePass_eq (fs : List FSFile) : sizePass fs = recordAll [] (sizeStream fs) := by
  suffices h : ∀ m, fs.foldl sizeStep m = recordAll m (sizeStream fs) from h []
  induction fs with
  | nil => intro m; rfl
  | cons f fs ih =>
    intro m
    rw [List.foldl_cons]
    by_cases hst : f.statOk
    · have hs : sizeStream (f :: fs) = (fileSize f, f.path) :: sizeStream fs := by
        simp [sizeStream, List.filterMap_cons, hst]
      rw [show sizeStep m f = addToBucket m (fileSize f) f.path from by
          simp [sizeStep, hst],
        ih, hs, recordAll]
    · have hs : sizeStream (f :: fs) = sizeStream fs := by
        simp [sizeStream, List.filterMap_cons, hst]
      rw [show sizeStep m f = m from by simp [sizeStep, hst], ih, hs]

/-- One bucket's inner loop records exactly that bucket's
`(digest, path)` stream. -/
theorem bucketFold_eq (md5 : List Byte → String) (fs : List FSFile) (paths : List String) :
    ∀ d : List (String × List String),
      paths.foldl (hashStep md5 fs) d = recordAll d (bucketStream md5 fs paths) := by
  induction paths with
  | nil => intro d; rfl
  | cons p rest ih =>
    intro d
    rw [List.foldl_cons]
    cases hl : lookupFile fs p with
    | none =>
      have hs : bucketStream md5 fs (p :: rest) = bucketStream md5 fs rest := by
        simp [bucketStream, List.filterMap_cons, hl]
      rw [show hashStep md5 fs d p = d from by simp [hashStep, hl], ih, hs]
    | some f =>
      by_cases hr : f.readOk
      · have hs : bucketStream md5 fs (p :: rest) =
            (hash_file md5 f.content 65536, p) :: bucketStream md5 fs rest := by
          simp [bucketStream, List.filterMap_cons, hl, hr]
        rw [show hashStep md5 fs d p = addToBucket d (hash_file md5 f.content 65536) p from by
            simp [hashStep, hl, hr],
          ih, hs, recordAll]
      · have hs : bucketStream md5 fs (p :: rest) = bucketStream md5 fs rest := by
          simp [bucketStream, List.filterMap_cons, hl, hr]
        rw [show hashStep md5 fs d p = d from by simp [hashStep, hl, hr], ih, hs]

/-- The second pass records exactly the concatenated bucket streams. -/
theorem hashPass_eq (md5 : List Byte → String) (fs : List FSFile)
    (buckets : List (Nat × List String)) :
    hashPass md5 fs buckets = recordAll [] (hashStream md5 fs buckets) := by
  suffices h : ∀ d, buckets.foldl (bucketStep md5 fs) d =
      recordAll d (hashStream md5 fs buckets) from h []
  induction buckets with
  | nil => intro d; rfl
  | cons kv rest ih =>
    intro d
    rw [List.foldl_cons, hashStream, recordAll_append, ih]
    by_cases hlen : 1 < kv.2.length
    · rw [show bucketStep md5 fs d kv = kv.2.foldl (hashStep md5 fs) d from by
          simp [bucketStep, hlen],
        if_pos hlen, bucketFold_eq]
    · rw [show bucketStep md5 fs d kv = d from by simp [bucketStep, hlen], if_neg hlen]
      rfl

/-! ### Characterizing the size buckets -/

/-- The `(size, path)` stream restricted to one size is that size's
bucket. -/
theorem sizeStream_filter (fs : List FSFile) (s : Nat) :
    ((sizeStream fs).filter (fun kx => kx.1 == s)).map Prod.snd = sizeBucketPaths fs s := by
  induction fs with
  | nil => rfl
  | cons f fs ih =>
    by_cases hst : f.statOk
    · by_cases hsz : fileSize f = s
      · simp [sizeStream, sizeBucketPaths, List.filterMap_cons, List.filter_cons, hst, hsz]
        simpa [sizeBucketPaths] using ih
      · simp [sizeStream, sizeBucketPaths, List.filterMap_cons, List.filter_cons, hst, hsz]
        simpa [sizeBucketPaths] using ih
    · simp [sizeStream, sizeBucketPaths, List.filterMap_cons, List.filter_cons, hst]
      simpa [sizeBucketPaths] using ih

/-- Looking a size up in the first pass's dictionary gives exactly that
size's bucket. -/
theorem bucketGet_sizePass (fs : List FSFile) (s : Nat) :
    bucketGet (sizePass fs) s = sizeBucketPaths fs s := by
  rw [sizePass_eq, bucketGet_recordAll]
  simpa [bucketGet] using sizeStream_filter fs s

/-- The first pass's dictionary has pairwise distinct keys. -/
theorem nodup_keys_sizePass (fs : List FSFile) :
    ((sizePass fs).map Prod.fst).Nodup := by
  rw [sizePass_eq]
  exact nodup_keys_recordAll _ _ (by simp)

/-- The second pass's dictionary has pairwise distinct keys. -/
theorem nodup_keys_hashPass (md5 : List Byte → String) (fs : List FSFile)
    (buckets : List (Nat × List String)) :
    ((hashPass md5 fs buckets).map Prod.fst).Nodup := by
  rw [hashPass_eq]
  exact nodup_keys_recordAll _ _ (by simp)

/-- Every entry of the first pass's dictionary is its key's bucket. -/
theorem mem_sizePass_eq (fs : List FSFile) (kv : Nat × List String)
    (hkv : kv ∈ sizePass fs) : kv.2 = sizeBucketPaths fs kv.1 := by
  have h := bucketGet_of_mem (sizePass fs) kv.1 kv.2 (nodup_keys_sizePass fs) hkv
  rw [bucketGet_sizePass] at h
  exact h.symm

/-- The size bucket is counted by `countSize`. -/
theorem countSize_eq (fs : List FSFile) (s : Nat) :
    countSize fs s = (sizeBucketPaths fs s).length := by
  simp [countSize, sizeBucketPaths]

/-- A stat-able file's path sits in its size's bucket. -/
theorem path_mem_sizeBucketPaths (fs : List FSFile) (f : FSFile)
    (hf : f ∈ fs) (hst : f.statOk = true) :
    f.path ∈ sizeBucketPaths fs (fileSize f) := by
  unfold sizeBucketPaths
  exact List.mem_map_of_mem FSFile.path (List.mem_filter.mpr ⟨hf, by simp [hst]⟩)

/-- A stat-able file's size bucket is an entry of the first pass's
dictionary. -/
theorem sizeBucket_mem_sizePass (fs : List FSFile) (f : FSFile)
    (hf : f ∈ fs) (hst : f.statOk = true) :
    (fileSize f, sizeBucketPaths fs (fileSize f)) ∈ sizePass fs := by
  have hne : bucketGet (sizePass fs) (fileSize f) ≠ [] := by
    rw [bucketGet_sizePass]
    exact List.ne_nil_of_mem (path_mem_sizeBucketPaths fs f hf hst)
  have hmem := mem_of_bucketGet_ne_nil (sizePass fs) (fileSize f) hne
  rwa [bucketGet_sizePass] at hmem

/-! ### Looking paths up in an unchanged tree -/

/-- A successful lookup returns a file of the tree at the looked-up
path. -/
theorem lookupFile_mem (fs : List FSFile) (p : String) (f : FSFile)
    (hl : lookupFile fs p = some f) : f ∈ fs ∧ f.path = p := by
  unfold lookupFile at hl
  refine ⟨List.mem_of_find?_eq_some hl, ?_⟩
  have h := List.find?_some hl
  simpa using h

/-- Unfolding one step of the lookup. -/
theorem lookupFile_cons (g : FSFile) (rest : List FSFile) (p : String) :
    lookupFile (g :: rest) p = if g.path = p then some g else lookupFile rest p := by
  unfold lookupFile
  by_cases hg : g.path = p
  · simp [List.find?_cons, hg]
  · simp [List.find?_cons, hg]

/-- With pairwise distinct paths, looking a file's path up returns that
file. -/
theorem lookupFile_of_mem (fs : List FSFile) (hnd : (fs.map FSFile.path).Nodup)
    (f : FSFile) (hf : f ∈ fs) : lookupFile fs f.path = some f := by
  induction fs with
  | nil => cases hf
  | cons g rest ih =>
    have hndc : g.path ∉ rest.map FSFile.path ∧ (rest.map FSFile.path).Nodup := by
      rw [List.map_cons] at hnd
      exact List.nodup_cons.mp hnd
    rcases List.mem_cons.mp hf with heq | htail
    · subst heq
      rw [lookupFile_cons, if_pos rfl]
    · have hne : g.path ≠ f.path := by
        intro he
        exact hndc.1 (he ▸ List.mem_map_of_mem FSFile.path htail)
      rw [lookupFile_cons, if_neg hne]
      exact ih hndc.2 htail

/-- With pairwise distinct paths, the path determines the file. -/
theorem path_inj (fs : List FSFile) (hnd : (fs.map FSFile.path).Nodup)
    (f g : FSFile) (hf : f ∈ fs) (hg : g ∈ fs) (hpq : f.path = g.path) : f = g := by
  have h1 := lookupFile_of_mem fs hnd f hf
  have h2 := lookupFile_of_mem fs hnd g hg
  rw [hpq] at h1
  rw [h1] at h2
  exact (Option.some.injEq .. ▸ h2)

/-! ### Characterizing the hash stream -/

/-- Membership in one bucket's `(digest, path)` stream. -/
theorem mem_bucketStream (md5 : List Byte → String) (fs : List FSFile)
    (paths : List String) (h : String) (p : String) :
    (h, p) ∈ bucketStream md5 fs paths ↔
      p ∈ paths ∧ ∃ f, lookupFile fs p = some f ∧ f.readOk = true ∧
        hash_file md5 f.content 65536 = h := by
  unfold bucketStream
  rw [List.mem_filterMap]
  constructor
  · rintro ⟨q, hq, heq⟩
    cases hl : lookupFile fs q with
    | none => rw [hl] at heq; cases heq
    | some f =>
      rw [hl] at heq
      by_cases hr : f.readOk
      · simp only [hr, if_true, Option.some.injEq, Prod.mk.injEq] at heq
        obtain ⟨h1, h2⟩ := heq
        subst h2
        exact ⟨hq, f, hl, hr, h1⟩
      · simp only [hr, if_false] at heq
        cases heq
  · rintro ⟨hp, f, hl, hr, hd⟩
    refine ⟨p, hp, ?_⟩
    rw [hl]
    simp [hr, hd]

/-- Membership in the full `(digest, path)` stream. -/
theorem mem_hashStream (md5 : List Byte → String) (fs : List FSFile)
    (pr : String × String) (bl : List (Nat × List String)) :
    pr ∈ hashStream md5 fs bl ↔
      ∃ kv, kv ∈ bl ∧ 1 < kv.2.length ∧ pr ∈ bucketStream md5 fs kv.2 := by
  induction bl with
  | nil => simp [hashStream]
  | cons kv rest ih =>
    by_cases hlen : 1 < kv.2.length
    · simp only [hashStream, if_pos hlen, List.mem_append, ih, List.mem_cons]
      constructor
      · rintro (hin | ⟨kv', h1, h2, h3⟩)
        · exact ⟨kv, Or.inl rfl, hlen, hin⟩
        · exact ⟨kv', Or.inr h1, h2, h3⟩
      · rintro ⟨kv', (rfl | h1), h2, h3⟩
        · exact Or.inl h3
        · exact Or.inr ⟨kv', h1, h2, h3⟩
    · simp only [hashStream, if_neg hlen, List.nil_append, ih, List.mem_cons]
      constructor
      · rintro ⟨kv', h1, h2, h3⟩
        exact ⟨kv', Or.inr h1, h2, h3⟩
      · rintro ⟨kv', (rfl | h1), h2, h3⟩
        · exact absurd h2 hlen
        · exact ⟨kv', h1, h2, h3⟩

/-- With pairwise distinct paths, membership in the stream fed to the
duplicates dictionary is exactly contributorship. -/
theorem mem_hashStream_sizePass (md5 : List Byte → String) (fs : List FSFile)
    (hnd : (fs.map FSFile.path).Nodup) (h : String) (p : String) :
    (h, p) ∈ hashStream md5 fs (sizePass fs) ↔
      ∃ f, f ∈ fs ∧ f.path = p ∧ isContributor md5 fs f = true ∧ digestOf md5 f = h := by
  rw [mem_hashStream]
  constructor
  · rintro ⟨kv, hkv, hlen, hbs⟩
    rw [mem_bucketStream] at hbs
    obtain ⟨hpmem, f, hl, hr, hd⟩ := hbs
    have hkv2 := mem_sizePass_eq fs kv hkv
    rw [hkv2] at hpmem
    unfold sizeBucketPaths at hpmem
    obtain ⟨g, hgmem, hgpath⟩ := List.mem_map.mp hpmem
    have hgfs := (List.mem_filter.mp hgmem).1
    have hgprop := (List.mem_filter.mp hgmem).2
    have hgst : g.statOk = true := by
      have := hgprop
      simp only [Bool.and_eq_true] at this
      exact this.1
    have hgsz : fileSize g = kv.1 := by
      have := hgprop
      simp only [Bool.and_eq_true, beq_iff_eq] at this
      exact this.2
    obtain ⟨hffs, hfpath⟩ := lookupFile_mem fs p f hl
    have hfg : f = g := path_inj fs hnd f g hffs hgfs (by rw [hfpath, hgpath])
    subst hfg
    refine ⟨f, hffs, hfpath, ?_, hd⟩
    unfold isContributor
    have hcs : 1 < countSize fs (fileSize f) := by
      rw [countSize_eq, hgsz, ← hkv2]
      exact hlen
    simp [hgst, hr, hcs]
  · rintro ⟨f, hffs, hfpath, hcontrib, hd⟩
    unfold isContributor at hcontrib
    simp only [Bool.and_eq_true, decide_eq_true_eq] at hcontrib
    obtain ⟨⟨hst, hr⟩, hcs⟩ := hcontrib
    refine ⟨(fileSize f, sizeBucketPaths fs (fileSize f)),
      sizeBucket_mem_sizePass fs f hffs hst, ?_, ?_⟩
    · rw [← countSize_eq]
      exact hcs
    · rw [mem_bucketStream]
      refine ⟨hfpath ▸ path_mem_sizeBucketPaths fs f hffs hst, f, ?_, hr, hd⟩
      rw [← hfpath]
      exact lookupFile_of_mem fs hnd f hffs

/-! ### Distinctness of the paths in the hash stream -/

/-- Membership in a size bucket's path list. -/
theorem mem_sizeBucketPaths (fs : List FSFile) (s : Nat) (p : String) :
    p ∈ sizeBucketPaths fs s ↔
      ∃ f, f ∈ fs ∧ f.statOk = true ∧ fileSize f = s ∧ f.path = p := by
  unfold sizeBucketPaths
  rw [List.mem_map]
  constructor
  · rintro ⟨f, hf, rfl⟩
    have h1 := (List.mem_filter.mp hf).1
    have h2 := (List.mem_filter.mp hf).2
    simp only [Bool.and_eq_true, beq_iff_eq] at h2
    exact ⟨f, h1, h2.1, h2.2, rfl⟩
  · rintro ⟨f, hf, hst, hsz, rfl⟩
    exact ⟨f, List.mem_filter.mpr ⟨hf, by simp [hst, hsz]⟩, rfl⟩

/-- A size bucket holds pairwise distinct paths when the walk does. -/
theorem nodup_sizeBucketPaths (fs : List FSFile) (hnd : (fs.map FSFile.path).Nodup)
    (s : Nat) : (sizeBucketPaths fs s).Nodup := by
  unfold sizeBucketPaths
  exact ((List.filter_sublist fs).map FSFile.path).nodup hnd

/-- The paths of one bucket's stream form a sublist of the bucket. -/
theorem bucketStream_paths_sublist (md5 : List Byte → String) (fs : List FSFile)
    (paths : List String) : ((bucketStream md5 fs paths).map Prod.snd).Sublist paths := by
  induction paths with
  | nil => simp [bucketStream]
  | cons p rest ih =>
    unfold bucketStream at ih ⊢
    rw [List.filterMap_cons]
    cases hl : lookupFile fs p with
    | none => exact ih.trans (List.sublist_cons_self p rest)
    | some f =>
      by_cases hr : f.readOk
      · simp only [hr, if_true]
        exact ih.cons₂ p
      · simp only [hr, if_false]
        exact ih.trans (List.sublist_cons_self p rest)

/-- Under distinct walk paths, the full `(digest, path)` stream over
well-formed buckets repeats no path. -/
theorem nodup_paths_hashStream (md5 : List Byte → String) (fs : List FSFile)
    (hnd : (fs.map FSFile.path).Nodup) :
    ∀ bl : List (Nat × List String), (bl.map Prod.fst).Nodup →
      (∀ kv ∈ bl, kv.2 = sizeBucketPaths fs kv.1) →
      ((hashStream md5 fs bl).map Prod.snd).Nodup := by
  intro bl
  induction bl with
  | nil =>
    intro _ _
    simp [hashStream]
  | cons kv rest ih =>
    intro hkeys hwf
    have hkeys1 : kv.1 ∉ rest.map Prod.fst := (List.nodup_cons.mp (by simpa using hkeys)).1
    have hkeys2 : (rest.map Prod.fst).Nodup := (List.nodup_cons.mp (by simpa using hkeys)).2
    have hwf1 : kv.2 = sizeBucketPaths fs kv.1 := hwf kv (List.mem_cons_self kv rest)
    have hwfrest : ∀ kv2 ∈ rest, kv2.2 = sizeBucketPaths fs kv2.1 :=
      fun kv2 h2 => hwf kv2 (List.mem_cons_of_mem kv h2)
    rw [hashStream, List.map_append]
    rw [List.nodup_append]
    refine ⟨?_, ih hkeys2 hwfrest, ?_⟩
    · by_cases hlen : 1 < kv.2.length
      · rw [if_pos hlen]
        exact (bucketStream_paths_sublist md5 fs kv.2).nodup
          (hwf1 ▸ nodup_sizeBucketPaths fs hnd kv.1)
      · rw [if_neg hlen]
        simp
    · intro p hp1 hp2
      by_cases hlen : 1 < kv.2.length
      · rw [if_pos hlen] at hp1
        have hpkv : p ∈ kv.2 := (bucketStream_paths_sublist md5 fs kv.2).subset hp1
        rw [hwf1, mem_sizeBucketPaths] at hpkv
        obtain ⟨f, hffs, hfst, hfsz, hfpath⟩ := hpkv
        obtain ⟨pr, hpr, hprsnd⟩ := List.mem_map.mp hp2
        rw [mem_hashStream] at hpr
        obtain ⟨kv2, hkv2, hlen2, hbs2⟩ := hpr
        have hpmem : pr.2 ∈ kv2.2 :=
          ((mem_bucketStream md5 fs kv2.2 pr.1 pr.2).mp hbs2).1
        rw [hprsnd, hwfrest kv2 hkv2, mem_sizeBucketPaths] at hpmem
        obtain ⟨g, hgfs, hgst, hgsz, hgpath⟩ := hpmem
        have hfg : f = g := path_inj fs hnd f g hffs hgfs (by rw [hfpath, hgpath])
        apply hkeys1
        rw [← hfsz, hfg, hgsz]
        exact List.mem_map_of_mem Prod.fst hkv2
      · rw [if_neg hlen] at hp1
        cases hp1

/-- The paths of the second pass's stream over the actual size buckets
are pairwise distinct. -/
theorem nodup_paths_hashStream_sizePass (md5 : List Byte → String) (fs : List FSFile)
    (hnd : (fs.map FSFile.path).Nodup) :
    ((hashStream md5 fs (sizePass fs)).map Prod.snd).Nodup :=
  nodup_paths_hashStream md5 fs hnd (sizePass fs) (nodup_keys_sizePass fs)
    (fun kv hkv => mem_sizePass_eq fs kv hkv)

/-! ### The returned mapping -/

/-- Looking a digest up in the second pass's dictionary gives the stream
entries with that digest. -/
theorem bucketGet_hashPass (md5 : List Byte → String) (fs : List FSFile)
    (bl : List (Nat × List String)) (h : String) :
    bucketGet (hashPass md5 fs bl) h =
      ((hashStream md5 fs bl).filter (fun pr => pr.1 == h)).map Prod.snd := by
  rw [hashPass_eq, bucketGet_recordAll]
  simp [bucketGet]

/-- Filtering the dictionary by group size, read back at a key. -/
theorem bucketGet_filter {κ α : Type} [DecidableEq κ] (m : List (κ × List α)) (k : κ)
    (hnd : (m.map Prod.fst).Nodup) :
    bucketGet (m.filter (fun kv => decide (1 < kv.2.length))) k =
      if 1 < (bucketGet m k).length then bucketGet m k else [] := by
  induction m with
  | nil => simp [bucketGet]
  | cons kv rest ih =>
    have hk1 : kv.1 ∉ rest.map Prod.fst := (List.nodup_cons.mp (by simpa using hnd)).1
    have hk2 : (rest.map Prod.fst).Nodup := (List.nodup_cons.mp (by simpa using hnd)).2
    obtain ⟨k0, xs⟩ := kv
    by_cases hk : k = k0
    · subst hk
      by_cases hlen : 1 < xs.length
      · rw [List.filter_cons_of_pos (by simpa using hlen)]
        simp [bucketGet, hlen]
      · rw [List.filter_cons_of_neg (by simpa using hlen)]
        have habs : bucketGet (rest.filter (fun kv => decide (1 < kv.2.length))) k = [] := by
          apply bucketGet_eq_nil
          intro hmem
          apply hk1
          obtain ⟨kv2, hkv2, hfst⟩ := List.mem_map.mp hmem
          exact List.mem_map.mpr ⟨kv2, List.mem_of_mem_filter hkv2, hfst⟩
        rw [habs]
        simp [bucketGet, hlen]
    · by_cases hlen : 1 < xs.length
      · rw [List.filter_cons_of_pos (by simpa using hlen)]
        simp only [bucketGet, if_neg hk]
        exact ih hk2
      · rw [List.filter_cons_of_neg (by simpa using hlen)]
        simp only [bucketGet, if_neg hk]
        exact ih hk2

/-- The keys of the returned mapping are pairwise distinct. -/
theorem nodup_keys_find_duplicates (md5 : List Byte → String) (fs : List FSFile) :
    ((find_duplicates md5 fs).map Prod.fst).Nodup := by
  unfold find_duplicates
  exact ((List.filter_sublist _).map Prod.fst).nodup
    (nodup_keys_hashPass md5 fs (sizePass fs))

/-- An entry of the returned mapping is its digest's group. -/
theorem mem_find_duplicates_groupOf (md5 : List Byte → String) (fs : List FSFile)
    (kv : String × List String) (hkv : kv ∈ find_duplicates md5 fs) :
    groupOf (find_duplicates md5 fs) kv.1 = kv.2 :=
  bucketGet_of_mem _ kv.1 kv.2 (nodup_keys_find_duplicates md5 fs) hkv

/-- The group the output holds at a digest, in terms of the second
pass's dictionary. -/
theorem groupOf_find_duplicates (md5 : List Byte → String) (fs : List FSFile) (h : String) :
    groupOf (find_duplicates md5 fs) h =
      if 1 < (bucketGet (hashPass md5 fs (sizePass fs)) h).length
      then bucketGet (hashPass md5 fs (sizePass fs)) h else [] := by
  unfold groupOf find_duplicates
  exact bucketGet_filter _ h (nodup_keys_hashPass md5 fs (sizePass fs))

/-- Membership in the second pass's dictionary at a digest is membership
in the stream. -/
theorem mem_bucketGet_hashPass (md5 : List Byte → String) (fs : List FSFile) (h p : String) :
    p ∈ bucketGet (hashPass md5 fs (sizePass fs)) h ↔
      (h, p) ∈ hashStream md5 fs (sizePass fs) := by
  rw [bucketGet_hashPass]
  constructor
  · intro hp
    obtain ⟨pr, hpr, hsnd⟩ := List.mem_map.mp hp
    have h1 := List.mem_of_mem_filter hpr
    have h2 := List.of_mem_filter hpr
    simp only [beq_iff_eq] at h2
    have : pr = (h, p) := by
      obtain ⟨a, b⟩ := pr
      simp only at h2 hsnd
      rw [h2, hsnd]
    rwa [this] at h1
  · intro hp
    refine List.mem_map.mpr ⟨(h, p), List.mem_filter.mpr ⟨hp, by simp⟩, rfl⟩

/-- Membership in a contributor path list. -/
theorem mem_contributorPaths (md5 : List Byte → String) (fs : List FSFile) (h p : String) :
    p ∈ contributorPaths md5 fs h ↔
      ∃ f, f ∈ fs ∧ f.path = p ∧ isContributor md5 fs f = true ∧ digestOf md5 f = h := by
  unfold contributorPaths
  rw [List.mem_map]
  constructor
  · rintro ⟨f, hf, rfl⟩
    have h1 := List.mem_of_mem_filter hf
    have h2 := List.of_mem_filter hf
    simp only [Bool.and_eq_true, beq_iff_eq] at h2
    exact ⟨f, h1, rfl, h2.1, h2.2⟩
  · rintro ⟨f, hf, rfl, hc, hd⟩
    exact ⟨f, List.mem_filter.mpr ⟨hf, by simp [hc, hd]⟩, rfl⟩

/-- `countHash` counts the contributor paths. -/
theorem countHash_eq_length (md5 : List Byte → String) (fs : List FSFile) (h : String) :
    countHash md5 fs h = (contributorPaths md5 fs h).length := by
  simp [countHash, contributorPaths]

/-- Contributor paths are pairwise distinct when the walk paths are. -/
theorem nodup_contributorPaths (md5 : List Byte → String) (fs : List FSFile)
    (hnd : (fs.map FSFile.path).Nodup) (h : String) :
    (contributorPaths md5 fs h).Nodup := by
  unfold contributorPaths
  exact ((List.filter_sublist fs).map FSFile.path).nodup hnd

/-- The group stored at a digest by the second pass has exactly
`countHash` members. -/
theorem length_bucketGet_hashPass (md5 : List Byte → String) (fs : List FSFile)
    (hnd : (fs.map FSFile.path).Nodup) (h : String) :
    (bucketGet (hashPass md5 fs (sizePass fs)) h).length = countHash md5 fs h := by
  have hLnd : (bucketGet (hashPass md5 fs (sizePass fs)) h).Nodup := by
    rw [bucketGet_hashPass]
    exact ((List.filter_sublist _).map Prod.snd).nodup
      (nodup_paths_hashStream_sizePass md5 fs hnd)
  have hRnd := nodup_contributorPaths md5 fs hnd h
  have hmem : ∀ p, p ∈ bucketGet (hashPass md5 fs (sizePass fs)) h ↔
      p ∈ contributorPaths md5 fs h := by
    intro p
    rw [mem_bucketGet_hashPass, mem_contributorPaths,
      mem_hashStream_sizePass md5 fs hnd h p]
  rw [countHash_eq_length]
  calc (bucketGet (hashPass md5 fs (sizePass fs)) h).length
      = (bucketGet (hashPass md5 fs (sizePass fs)) h).toFinset.card :=
        (List.toFinset_card_of_nodup hLnd).symm
    _ = (contributorPaths md5 fs h).toFinset.card := by
        congr 1
        apply Finset.ext
        intro p
        simp only [List.mem_toFinset]
        exact hmem p
    _ = (contributorPaths md5 fs h).length := List.toFinset_card_of_nodup hRnd

/-- The central characterization: with pairwise distinct walk paths, a
path lies in the output group of digest `h` exactly when some walked file
at that path is stat-able, readable, sits in a size bucket with at least
two members, hashes to `h`, and at least two such contributors share the
digest `h`. -/
theorem mem_groupOf_iff (md5 : List Byte → String) (fs : List FSFile)
    (hnd : (fs.map FSFile.path).Nodup) (h p : String) :
    p ∈ groupOf (find_duplicates md5 fs) h ↔
      (∃ f, f ∈ fs ∧ f.path = p ∧ isContributor md5 fs f = true ∧ digestOf md5 f = h) ∧
        1 < countHash md5 fs h := by
  rw [groupOf_find_duplicates, length_bucketGet_hashPass md5 fs hnd h]
  by_cases hc : 1 < countHash md5 fs h
  · rw [if_pos hc, mem_bucketGet_hashPass, mem_hashStream_sizePass md5 fs hnd h p]
    simp [hc]
  · rw [if_neg hc]
    simp [hc]

/-- Output groups repeat no path. -/
theorem nodup_groupOf (md5 : List Byte → String) (fs : List FSFile)
    (hnd : (fs.map FSFile.path).Nodup) (h : String) :
    (groupOf (find_duplicates md5 fs) h).Nodup := by
  rw [groupOf_find_duplicates]
  by_cases hc : 1 < (bucketGet (hashPass md5 fs (sizePass fs)) h).length
  · rw [if_pos hc, bucketGet_hashPass]
    exact ((List.filter_sublist _).map Prod.snd).nodup
      (nodup_paths_hashStream_sizePass md5 fs hnd)
  · rw [if_neg hc]
    exact List.nodup_nil

/-! ### Easy claims: the final filter and the root guard -/

/-- Claim C1: every group in the mapping returned by `find_duplicates`
has at least 2 member paths; no digest whose path list has exactly one
element survives the final filter. -/
theorem claim_C1 (md5 : List Byte → String) (fs : List FSFile)
    (kv : String × List String) (hkv : kv ∈ find_duplicates md5 fs) :
    2 ≤ kv.2.length := by
  unfold find_duplicates at hkv
  have h := (List.mem_filter.mp hkv).2
  have h2 : 1 < kv.2.length := of_decide_eq_true h
  omega

/-- Witness for C1: two identical one-byte files under a constant digest
form a group of size 2. -/
theorem claim_C1_witness :
    ("h", ["a", "b"]) ∈
        find_duplicates (fun _ => "h")
          [⟨"a", [7], true, true⟩, ⟨"b", [7], true, true⟩] ∧
      2 ≤ (("h", ["a", "b"]) : String × List String).2.length :=
  ⟨by simp [find_duplicates, sizePass, hashPass, sizeStep, hashStep, bucketStep, addToBucket, lookupFile, fileSize, hash_file_default],
    claim_C1 (fun _ => "h") [⟨"a", [7], true, true⟩, ⟨"b", [7], true, true⟩]
      ("h", ["a", "b"])
      (by simp [find_duplicates, sizePass, hashPass, sizeStep, hashStep, bucketStep, addToBucket, lookupFile, fileSize, hash_file_default])⟩

/-- Claim C5: a root path that does not exist or is not a directory is
rejected with `NotFoundError` before any traversal, with no partial
output mapping. -/
theorem claim_C5 (md5 : List Byte → String) (t : DirTree) (hroot : t.rootIsDir = false) :
    scan md5 t = Except.error ScanError.NotFoundError := by
  unfold scan
  rw [hroot]
  simp

/-- Witness for C5 on a concrete non-directory root. -/
theorem claim_C5_witness :
    (DirTree.mk false []).rootIsDir = false ∧
      scan (fun _ => "h") (DirTree.mk false []) = Except.error ScanError.NotFoundError :=
  ⟨rfl, claim_C5 (fun _ => "h") (DirTree.mk false []) rfl⟩

/-! ### Shared concrete-evaluation helper -/

/-- The output on a two-file tree whose files have equal content. -/
theorem find_duplicates_pair (md5 : List Byte → String) (c : List Byte) (p1 p2 : String)
    (hne : p1 ≠ p2) :
    find_duplicates md5 [⟨p1, c, true, true⟩, ⟨p2, c, true, true⟩] = [(md5 c, [p1, p2])] := by
  simp [find_duplicates, sizePass, sizeStep, hashPass, bucketStep, hashStep, addToBucket,
    lookupFile, fileSize, hash_file_default, List.find?_cons, List.filter_cons, hne, Ne.symm hne]

/-- Membership among the paths the second pass hashes. -/
theorem mem_hashCalls (bl : List (Nat × List String)) (p : String) :
    p ∈ hashCalls bl ↔ ∃ kv, kv ∈ bl ∧ 1 < kv.2.length ∧ p ∈ kv.2 := by
  induction bl with
  | nil => simp [hashCalls]
  | cons kv rest ih =>
    by_cases hlen : 1 < kv.2.length
    · simp only [hashCalls, if_pos hlen, List.mem_append, ih, List.mem_cons]
      constructor
      · rintro (hin | ⟨kv2, h1, h2, h3⟩)
        · exact ⟨kv, Or.inl rfl, hlen, hin⟩
        · exact ⟨kv2, Or.inr h1, h2, h3⟩
      · rintro ⟨kv2, (rfl | h1), h2, h3⟩
        · exact Or.inl h3
        · exact Or.inr ⟨kv2, h1, h2, h3⟩
    · simp only [hashCalls, if_neg hlen, List.nil_append, ih, List.mem_cons]
      constructor
      · rintro ⟨kv2, h1, h2, h3⟩
        exact ⟨kv2, Or.inr h1, h2, h3⟩
      · rintro ⟨kv2, (rfl | h1), h2, h3⟩
        · exact absurd h2 hlen
        · exact ⟨kv2, h1, h2, h3⟩

/-! ### Counting helpers for entry removal -/

/-- A pointwise-stronger filter keeps at least as many elements. -/
theorem length_filter_le_of_imp {α : Type} (l : List α) (p q : α → Bool)
    (h : ∀ a, p a = true → q a = true) : (l.filter p).length ≤ (l.filter q).length := by
  induction l with
  | nil => simp
  | cons b t ih =>
    by_cases hp : p b = true
    · simp only [List.filter_cons, hp, h b hp, if_true]
      simpa using ih
    · by_cases hq : q b = true
      · simp [List.filter_cons, hp, hq, List.length_cons]
        have := ih
        omega
      · simp [List.filter_cons, hp, hq]
        simpa using ih

/-- Excluding one kept element from a filter costs exactly one, on a
duplicate-free list. -/
theorem length_filter_and_ne {α : Type} [DecidableEq α] (l : List α) (q : α → Bool) (a : α)
    (hnd : l.Nodup) (ha : a ∈ l) (hqa : q a = true) :
    (l.filter (fun x => q x && decide (x ≠ a))).length + 1 = (l.filter q).length := by
  induction l with
  | nil => cases ha
  | cons b t ih =>
    have hb : b ∉ t := (List.nodup_cons.mp hnd).1
    have ht : t.Nodup := (List.nodup_cons.mp hnd).2
    rcases List.mem_cons.mp ha with rfl | hat
    · have h1 : (q a && decide (a ≠ a)) = false := by simp
      have hcong : t.filter (fun x => q x && decide (x ≠ a)) = t.filter q := by
        apply List.filter_congr
        intro x hx
        have hxa : x ≠ a := fun he => hb (he ▸ hx)
        simp [hxa]
      rw [List.filter_cons, List.filter_cons, if_neg (by rw [h1]; exact Bool.false_ne_true), if_pos hqa, hcong,
        List.length_cons]
    · have hba : b ≠ a := fun he => hb (he ▸ hat)
      by_cases hqb : q b = true
      · have h1 : (q b && decide (b ≠ a)) = true := by simp [hqb, hba]
        rw [List.filter_cons, List.filter_cons, if_pos h1, if_pos hqb,
          List.length_cons, List.length_cons]
        have := ih ht hat
        omega
      · have h1 : (q b && decide (b ≠ a)) = false := by simp [hqb]
        rw [List.filter_cons, List.filter_cons, if_neg (by rw [h1]; exact Bool.false_ne_true), if_neg hqb]
        exact ih ht hat

/-- How removing one walked entry changes a size count. -/
theorem countSize_middle (l1 l2 : List FSFile) (f : FSFile) (s : Nat) :
    countSize (l1 ++ f :: l2) s =
      countSize (l1 ++ l2) s + (if (f.statOk && (fileSize f == s)) = true then 1 else 0) := by
  unfold countSize
  rw [List.filter_append, List.filter_append, List.filter_cons]
  by_cases hq : (f.statOk && (fileSize f == s)) = true
  · simp [hq, List.length_append]
    omega
  · simp [hq, List.length_append]

/-- Removing a never-contributing entry leaves every group of the output
unchanged, member for member. -/
theorem groupOf_congr (md5 : List Byte → String) (l1 l2 : List FSFile) (f : FSFile)
    (hnd : ((l1 ++ f :: l2).map FSFile.path).Nodup)
    (hcontrib : ∀ g, isContributor md5 (l1 ++ f :: l2) g = isContributor md5 (l1 ++ l2) g)
    (hncf : isContributor md5 (l1 ++ f :: l2) f = false) :
    ∀ h p, p ∈ groupOf (find_duplicates md5 (l1 ++ f :: l2)) h ↔
      p ∈ groupOf (find_duplicates md5 (l1 ++ l2)) h := by
  have hnd' : ((l1 ++ l2).map FSFile.path).Nodup :=
    (((List.sublist_cons_self f l2).append_left l1).map FSFile.path).nodup hnd
  have hncf' : isContributor md5 (l1 ++ l2) f = false := by
    rw [← hcontrib f]
    exact hncf
  have hch : ∀ h, countHash md5 (l1 ++ f :: l2) h = countHash md5 (l1 ++ l2) h := by
    intro h
    unfold countHash
    rw [show (fun g => isContributor md5 (l1 ++ f :: l2) g && (digestOf md5 g == h)) =
        (fun g => isContributor md5 (l1 ++ l2) g && (digestOf md5 g == h)) from
      funext fun g => by rw [hcontrib g]]
    rw [List.filter_append, List.filter_append, List.filter_cons]
    simp [hncf', List.length_append]
  intro h p
  rw [mem_groupOf_iff md5 _ hnd h p, mem_groupOf_iff md5 _ hnd' h p, hch h]
  constructor
  · rintro ⟨⟨g, hg, hgp, hgc, hgd⟩, hcnt⟩
    have hgne : g ≠ f := by
      intro he
      rw [he, hncf] at hgc
      cases hgc
    have hgmem' : g ∈ l1 ++ l2 := by
      rcases List.mem_append.mp hg with h1 | h1
      · exact List.mem_append_left l2 h1
      · rcases List.mem_cons.mp h1 with h2 | h2
        · exact absurd h2 hgne
        · exact List.mem_append_right l1 h2
    exact ⟨⟨g, hgmem', hgp, (hcontrib g) ▸ hgc, hgd⟩, hcnt⟩
  · rintro ⟨⟨g, hg, hgp, hgc, hgd⟩, hcnt⟩
    refine ⟨⟨g, ((List.sublist_cons_self f l2).append_left l1).subset hg, hgp, ?_, hgd⟩, hcnt⟩
    rw [hcontrib g]
    exact hgc

/-! ### Claim C10: groups are pairwise disjoint and repeat no path -/

/-- Claim C10: when the traversal yields each path at most once, no path
appears twice within a group and no path belongs to two different
groups. -/
theorem claim_C10 (md5 : List Byte → String) (fs : List FSFile)
    (hnd : (fs.map FSFile.path).Nodup) :
    (∀ kv ∈ find_duplicates md5 fs, kv.2.Nodup) ∧
      (∀ h1 h2 p, p ∈ groupOf (find_duplicates md5 fs) h1 →
        p ∈ groupOf (find_duplicates md5 fs) h2 → h1 = h2) := by
  constructor
  · intro kv hkv
    have h := mem_find_duplicates_groupOf md5 fs kv hkv
    rw [← h]
    exact nodup_groupOf md5 fs hnd kv.1
  · intro h1 h2 p hp1 hp2
    rw [mem_groupOf_iff md5 fs hnd h1 p] at hp1
    rw [mem_groupOf_iff md5 fs hnd h2 p] at hp2
    obtain ⟨⟨f1, hf1, hfp1, _, hd1⟩, _⟩ := hp1
    obtain ⟨⟨f2, hf2, hfp2, _, hd2⟩, _⟩ := hp2
    have heq : f1 = f2 := path_inj fs hnd f1 f2 hf1 hf2 (by rw [hfp1, hfp2])
    rw [← hd1, heq, hd2]

/-- Witness for C10 on a two-duplicate tree. -/
theorem claim_C10_witness :
    (∀ kv ∈ find_duplicates (fun _ => "h") [⟨"u", [3], true, true⟩, ⟨"v", [3], true, true⟩],
        kv.2.Nodup) ∧
      (∀ h1 h2 p,
        p ∈ groupOf (find_duplicates (fun _ => "h")
          [⟨"u", [3], true, true⟩, ⟨"v", [3], true, true⟩]) h1 →
        p ∈ groupOf (find_duplicates (fun _ => "h")
          [⟨"u", [3], true, true⟩, ⟨"v", [3], true, true⟩]) h2 → h1 = h2) :=
  claim_C10 (fun _ => "h") [⟨"u", [3], true, true⟩, ⟨"v", [3], true, true⟩] (by decide)

/-! ### Claim C2: determinism up to traversal order -/

/-- Claim C2: on an unchanged tree, two runs whose traversals list the
same files (possibly in different orders) produce the same set of
digest-to-path-set groups: each digest's group has the same members, and
the same digests are present. -/
theorem claim_C2 (md5 : List Byte → String) (fs1 fs2 : List FSFile)
    (hnd : (fs1.map FSFile.path).Nodup) (hperm : fs1.Perm fs2) :
    (∀ h p, p ∈ groupOf (find_duplicates md5 fs1) h ↔
        p ∈ groupOf (find_duplicates md5 fs2) h) ∧
      (∀ h, (∃ g, (h, g) ∈ find_duplicates md5 fs1) ↔
        ∃ g, (h, g) ∈ find_duplicates md5 fs2) := by
  have hnd2 : (fs2.map FSFile.path).Nodup := ((hperm.map FSFile.path).nodup_iff).mp hnd
  have hcs : ∀ s, countSize fs1 s = countSize fs2 s := fun s => (hperm.filter _).length_eq
  have hcontrib : ∀ g, isContributor md5 fs1 g = isContributor md5 fs2 g := by
    intro g
    unfold isContributor
    rw [hcs (fileSize g)]
  have hch : ∀ h, countHash md5 fs1 h = countHash md5 fs2 h := by
    intro h
    unfold countHash
    rw [show (fun f => isContributor md5 fs1 f && (digestOf md5 f == h)) =
        (fun f => isContributor md5 fs2 f && (digestOf md5 f == h)) from
      funext fun g => by rw [hcontrib g]]
    exact (hperm.filter _).length_eq
  have hmain : ∀ h p, p ∈ groupOf (find_duplicates md5 fs1) h ↔
      p ∈ groupOf (find_duplicates md5 fs2) h := by
    intro h p
    rw [mem_groupOf_iff md5 fs1 hnd h p, mem_groupOf_iff md5 fs2 hnd2 h p, hch h]
    constructor
    · rintro ⟨⟨f, hf, hp2, hc, hd⟩, hcnt⟩
      exact ⟨⟨f, hperm.subset hf, hp2, (hcontrib f) ▸ hc, hd⟩, hcnt⟩
    · rintro ⟨⟨f, hf, hp2, hc, hd⟩, hcnt⟩
      refine ⟨⟨f, hperm.symm.subset hf, hp2, ?_, hd⟩, hcnt⟩
      rw [hcontrib f]
      exact hc
  refine ⟨hmain, ?_⟩
  intro h
  constructor
  · rintro ⟨g, hg⟩
    have hgrp : groupOf (find_duplicates md5 fs1) h = g :=
      mem_find_duplicates_groupOf md5 fs1 (h, g) hg
    have hlen : 1 < g.length := by
      unfold find_duplicates at hg
      exact of_decide_eq_true (List.mem_filter.mp hg).2
    have hne : g ≠ [] := by
      intro he
      rw [he] at hlen
      simp at hlen
    obtain ⟨p, hp⟩ := List.exists_mem_of_ne_nil g hne
    have hp2 : p ∈ groupOf (find_duplicates md5 fs2) h := (hmain h p).mp (hgrp ▸ hp)
    have hne2 : bucketGet (find_duplicates md5 fs2) h ≠ [] := by
      intro he
      unfold groupOf at hp2
      rw [he] at hp2
      cases hp2
    exact ⟨bucketGet (find_duplicates md5 fs2) h, mem_of_bucketGet_ne_nil _ h hne2⟩
  · rintro ⟨g, hg⟩
    have hgrp : groupOf (find_duplicates md5 fs2) h = g :=
      mem_find_duplicates_groupOf md5 fs2 (h, g) hg
    have hlen : 1 < g.length := by
      unfold find_duplicates at hg
      exact of_decide_eq_true (List.mem_filter.mp hg).2
    have hne : g ≠ [] := by
      intro he
      rw [he] at hlen
      simp at hlen
    obtain ⟨p, hp⟩ := List.exists_mem_of_ne_nil g hne
    have hp1 : p ∈ groupOf (find_duplicates md5 fs1) h := (hmain h p).mpr (hgrp ▸ hp)
    have hne1 : bucketGet (find_duplicates md5 fs1) h ≠ [] := by
      intro he
      unfold groupOf at hp1
      rw [he] at hp1
      cases hp1
    exact ⟨bucketGet (find_duplicates md5 fs1) h, mem_of_bucketGet_ne_nil _ h hne1⟩

/-- Witness for C2 on a two-file tree listed in both orders. -/
theorem claim_C2_witness :
    (∀ h p, p ∈ groupOf (find_duplicates (fun _ => "h")
        [⟨"a", [7], true, true⟩, ⟨"b", [7], true, true⟩]) h ↔
      p ∈ groupOf (find_duplicates (fun _ => "h")
        [⟨"b", [7], true, true⟩, ⟨"a", [7], true, true⟩]) h) ∧
      (∀ h, (∃ g, (h, g) ∈ find_duplicates (fun _ => "h")
          [⟨"a", [7], true, true⟩, ⟨"b", [7], true, true⟩]) ↔
        ∃ g, (h, g) ∈ find_duplicates (fun _ => "h")
          [⟨"b", [7], true, true⟩, ⟨"a", [7], true, true⟩]) :=
  claim_C2 (fun _ => "h") _ _ (by decide) (List.Perm.swap _ _ _)

/-! ### Claim C3: size homogeneity of groups -/

/-- Counterexample to C3 as stated: under a digest function that collides
across sizes (the code's `duplicates` dictionary is shared across size
buckets), one output group mixes paths of size 0 and size 2. -/
theorem claim_C3_counterexample :
    "e1" ∈ groupOf (find_duplicates (fun _ => "x")
        [⟨"e1", [], true, true⟩, ⟨"e2", [], true, true⟩,
         ⟨"n1", [5, 6], true, true⟩, ⟨"n2", [5, 6], true, true⟩]) "x" ∧
      "n1" ∈ groupOf (find_duplicates (fun _ => "x")
        [⟨"e1", [], true, true⟩, ⟨"e2", [], true, true⟩,
         ⟨"n1", [5, 6], true, true⟩, ⟨"n2", [5, 6], true, true⟩]) "x" ∧
      sizeOfPath [⟨"e1", [], true, true⟩, ⟨"e2", [], true, true⟩,
         ⟨"n1", [5, 6], true, true⟩, ⟨"n2", [5, 6], true, true⟩] "e1" ≠
        sizeOfPath [⟨"e1", [], true, true⟩, ⟨"e2", [], true, true⟩,
         ⟨"n1", [5, 6], true, true⟩, ⟨"n2", [5, 6], true, true⟩] "n1" := by
  have hout : find_duplicates (fun _ => "x")
      [⟨"e1", [], true, true⟩, ⟨"e2", [], true, true⟩,
       ⟨"n1", [5, 6], true, true⟩, ⟨"n2", [5, 6], true, true⟩] =
      [("x", ["e1", "e2", "n1", "n2"])] := by
    simp [find_duplicates, sizePass, sizeStep, hashPass, bucketStep, hashStep, addToBucket,
      lookupFile, fileSize, hash_file_default, List.find?_cons, List.filter_cons]
  refine ⟨?_, ?_, ?_⟩
  · rw [hout]
    simp [groupOf, bucketGet]
  · rw [hout]
    simp [groupOf, bucketGet]
  · simp [sizeOfPath, lookupFile, List.find?_cons, fileSize]

/-- Claim C3 amended: provided the digest function never maps contents of
different lengths to the same digest (the spec's collision-freeness
assumption for MD5), all paths of one output group have the same file
size. -/
theorem claim_C3 (md5 : List Byte → String) (fs : List FSFile)
    (hm : ∀ c1 c2 : List Byte, md5 c1 = md5 c2 → c1.length = c2.length)
    (hnd : (fs.map FSFile.path).Nodup) (h p q : String)
    (hp : p ∈ groupOf (find_duplicates md5 fs) h)
    (hq : q ∈ groupOf (find_duplicates md5 fs) h) :
    sizeOfPath fs p = sizeOfPath fs q := by
  rw [mem_groupOf_iff md5 fs hnd h p] at hp
  rw [mem_groupOf_iff md5 fs hnd h q] at hq
  obtain ⟨⟨f1, hf1, hp1, _, hd1⟩, _⟩ := hp
  obtain ⟨⟨f2, hf2, hp2, _, hd2⟩, _⟩ := hq
  have hdd : md5 f1.content = md5 f2.content := by
    have e1 : digestOf md5 f1 = md5 f1.content := hash_file_default md5 f1.content
    have e2 : digestOf md5 f2 = md5 f2.content := hash_file_default md5 f2.content
    rw [← e1, ← e2, hd1, hd2]
  have hsz : fileSize f1 = fileSize f2 := hm f1.content f2.content hdd
  rw [← hp1, ← hp2]
  unfold sizeOfPath
  rw [lookupFile_of_mem fs hnd f1 hf1, lookupFile_of_mem fs hnd f2 hf2]
  simp [hsz]

/-- Witness for the amended C3 under a length-revealing digest. -/
theorem claim_C3_witness :
    "p" ∈ groupOf (find_duplicates (fun c => String.mk (List.replicate c.length 'a'))
        [⟨"p", [7], true, true⟩, ⟨"q", [7], true, true⟩]) (String.mk ['a']) ∧
      "q" ∈ groupOf (find_duplicates (fun c => String.mk (List.replicate c.length 'a'))
        [⟨"p", [7], true, true⟩, ⟨"q", [7], true, true⟩]) (String.mk ['a']) ∧
      sizeOfPath [⟨"p", [7], true, true⟩, ⟨"q", [7], true, true⟩] "p" =
        sizeOfPath [⟨"p", [7], true, true⟩, ⟨"q", [7], true, true⟩] "q" := by
  have hmem1 : "p" ∈ groupOf (find_duplicates (fun c => String.mk (List.replicate c.length 'a'))
      [⟨"p", [7], true, true⟩, ⟨"q", [7], true, true⟩]) (String.mk ['a']) := by
    rw [find_duplicates_pair (fun c => String.mk (List.replicate c.length 'a')) [7] "p" "q"
      (by decide)]
    simp [groupOf, bucketGet, List.replicate]
  have hmem2 : "q" ∈ groupOf (find_duplicates (fun c => String.mk (List.replicate c.length 'a'))
      [⟨"p", [7], true, true⟩, ⟨"q", [7], true, true⟩]) (String.mk ['a']) := by
    rw [find_duplicates_pair (fun c => String.mk (List.replicate c.length 'a')) [7] "p" "q"
      (by decide)]
    simp [groupOf, bucketGet, List.replicate]
  refine ⟨hmem1, hmem2, ?_⟩
  exact claim_C3 (fun c => String.mk (List.replicate c.length 'a'))
    [⟨"p", [7], true, true⟩, ⟨"q", [7], true, true⟩]
    (fun c1 c2 hh => by
      have h2 : List.replicate c1.length 'a' = List.replicate c2.length 'a' :=
        congrArg String.data hh
      have h3 := congrArg List.length h2
      simpa using h3)
    (by decide) (String.mk ['a']) "p" "q" hmem1 hmem2

/-! ### Claim C4: size 0 never grouped with non-empty files -/

/-- Counterexample to C4 as stated: the size pre-filter alone does not
keep empty files out of non-empty files' groups, because the duplicates
dictionary is shared across size buckets; a digest function that maps an
empty and a non-empty content to the same digest merges them. -/
theorem claim_C4_counterexample :
    "z1" ∈ groupOf (find_duplicates (fun _ => "x")
        [⟨"z1", [], true, true⟩, ⟨"z2", [], true, true⟩,
         ⟨"w1", [9], true, true⟩, ⟨"w2", [9], true, true⟩]) "x" ∧
      "w1" ∈ groupOf (find_duplicates (fun _ => "x")
        [⟨"z1", [], true, true⟩, ⟨"z2", [], true, true⟩,
         ⟨"w1", [9], true, true⟩, ⟨"w2", [9], true, true⟩]) "x" ∧
      sizeOfPath [⟨"z1", [], true, true⟩, ⟨"z2", [], true, true⟩,
         ⟨"w1", [9], true, true⟩, ⟨"w2", [9], true, true⟩] "z1" = some 0 ∧
      sizeOfPath [⟨"z1", [], true, true⟩, ⟨"z2", [], true, true⟩,
         ⟨"w1", [9], true, true⟩, ⟨"w2", [9], true, true⟩] "w1" = some 1 := by
  have hout : find_duplicates (fun _ => "x")
      [⟨"z1", [], true, true⟩, ⟨"z2", [], true, true⟩,
       ⟨"w1", [9], true, true⟩, ⟨"w2", [9], true, true⟩] =
      [("x", ["z1", "z2", "w1", "w2"])] := by
    simp [find_duplicates, sizePass, sizeStep, hashPass, bucketStep, hashStep, addToBucket,
      lookupFile, fileSize, hash_file_default, List.find?_cons, List.filter_cons]
  refine ⟨?_, ?_, ?_, ?_⟩
  · rw [hout]
    simp [groupOf, bucketGet]
  · rw [hout]
    simp [groupOf, bucketGet]
  · simp [sizeOfPath, lookupFile, List.find?_cons, fileSize]
  · simp [sizeOfPath, lookupFile, List.find?_cons, fileSize]

/-- Claim C4 amended: provided the digest function never maps a non-empty
content to the digest of the empty content, no output group contains both
a size-0 path and a non-empty path. -/
theorem claim_C4 (md5 : List Byte → String) (fs : List FSFile)
    (hm0 : ∀ c : List Byte, c ≠ [] → md5 c ≠ md5 [])
    (hnd : (fs.map FSFile.path).Nodup) (h p q : String)
    (hp : p ∈ groupOf (find_duplicates md5 fs) h)
    (hq : q ∈ groupOf (find_duplicates md5 fs) h)
    (hzp : sizeOfPath fs p = some 0) : sizeOfPath fs q = some 0 := by
  rw [mem_groupOf_iff md5 fs hnd h p] at hp
  rw [mem_groupOf_iff md5 fs hnd h q] at hq
  obtain ⟨⟨f1, hf1, hp1, _, hd1⟩, _⟩ := hp
  obtain ⟨⟨f2, hf2, hp2, _, hd2⟩, _⟩ := hq
  have hdd : md5 f1.content = md5 f2.content := by
    have e1 : digestOf md5 f1 = md5 f1.content := hash_file_default md5 f1.content
    have e2 : digestOf md5 f2 = md5 f2.content := hash_file_default md5 f2.content
    rw [← e1, ← e2, hd1, hd2]
  have hsz1 : sizeOfPath fs p = some (fileSize f1) := by
    rw [← hp1]
    unfold sizeOfPath
    rw [lookupFile_of_mem fs hnd f1 hf1]
    rfl
  have hf1nil : f1.content = [] := by
    rw [hsz1] at hzp
    have : fileSize f1 = 0 := by
      have := Option.some.injEq .. ▸ hzp
      exact this
    exact List.length_eq_zero.mp this
  have hf2nil : f2.content = [] := by
    by_contra hne
    apply hm0 f2.content hne
    rw [← hdd, hf1nil]
  have hsz2 : sizeOfPath fs q = some (fileSize f2) := by
    rw [← hp2]
    unfold sizeOfPath
    rw [lookupFile_of_mem fs hnd f2 hf2]
    rfl
  rw [hsz2]
  unfold fileSize
  rw [hf2nil]
  rfl

/-- Witness for the amended C4 under an emptiness-revealing digest. -/
theorem claim_C4_witness :
    "m1" ∈ groupOf (find_duplicates (fun c => if c.isEmpty then "E" else "N")
        [⟨"m1", [], true, true⟩, ⟨"m2", [], true, true⟩]) "E" ∧
      "m2" ∈ groupOf (find_duplicates (fun c => if c.isEmpty then "E" else "N")
        [⟨"m1", [], true, true⟩, ⟨"m2", [], true, true⟩]) "E" ∧
      sizeOfPath [⟨"m1", [], true, true⟩, ⟨"m2", [], true, true⟩] "m1" = some 0 ∧
      sizeOfPath [⟨"m1", [], true, true⟩, ⟨"m2", [], true, true⟩] "m2" = some 0 := by
  have hmem1 : "m1" ∈ groupOf (find_duplicates (fun c => if c.isEmpty then "E" else "N")
      [⟨"m1", [], true, true⟩, ⟨"m2", [], true, true⟩]) "E" := by
    rw [find_duplicates_pair (fun c => if c.isEmpty then "E" else "N") [] "m1" "m2" (by decide)]
    simp [groupOf, bucketGet]
  have hmem2 : "m2" ∈ groupOf (find_duplicates (fun c => if c.isEmpty then "E" else "N")
      [⟨"m1", [], true, true⟩, ⟨"m2", [], true, true⟩]) "E" := by
    rw [find_duplicates_pair (fun c => if c.isEmpty then "E" else "N") [] "m1" "m2" (by decide)]
    simp [groupOf, bucketGet]
  have hz1 : sizeOfPath [⟨"m1", ([] : List Byte), true, true⟩,
      ⟨"m2", ([] : List Byte), true, true⟩] "m1" = some 0 := by
    simp [sizeOfPath, lookupFile, List.find?_cons, fileSize]
  refine ⟨hmem1, hmem2, hz1, ?_⟩
  exact claim_C4 (fun c => if c.isEmpty then "E" else "N")
    [⟨"m1", [], true, true⟩, ⟨"m2", [], true, true⟩]
    (fun c hc => by
      cases c with
      | nil => exact absurd rfl hc
      | cons a t =>
        intro hcon
        have h2 : ("N" : String) = "E" := hcon
        exact absurd h2 (by decide))
    (by decide) "E" "m1" "m2" hmem1 hmem2 hz1

/-! ### Claim C6: singleton size buckets are never hashed -/

/-- Claim C6: a path alone in its size bucket is never passed to
`hash_file`; conversely every hashed path sits in a bucket of at least
two paths. -/
theorem claim_C6 (fs : List FSFile) (hnd : (fs.map FSFile.path).Nodup) :
    (∀ s ps, (s, ps) ∈ sizePass fs → ps.length = 1 →
        ∀ p ∈ ps, p ∉ hashCalls (sizePass fs)) ∧
      (∀ p ∈ hashCalls (sizePass fs),
        ∃ s ps, (s, ps) ∈ sizePass fs ∧ p ∈ ps ∧ 2 ≤ ps.length) := by
  constructor
  · intro s ps hmem hlen p hp hcall
    rw [mem_hashCalls] at hcall
    obtain ⟨kv, hkv, hklen, hpkv⟩ := hcall
    have h1 : ps = sizeBucketPaths fs s := mem_sizePass_eq fs (s, ps) hmem
    have h2 : kv.2 = sizeBucketPaths fs kv.1 := mem_sizePass_eq fs kv hkv
    rw [h1, mem_sizeBucketPaths] at hp
    rw [h2, mem_sizeBucketPaths] at hpkv
    obtain ⟨f, hffs, hfst, hfsz, hfp⟩ := hp
    obtain ⟨g, hgfs, hgst, hgsz, hgp⟩ := hpkv
    have hfg : f = g := path_inj fs hnd f g hffs hgfs (by rw [hfp, hgp])
    have hskv : s = kv.1 := by rw [← hfsz, hfg, hgsz]
    rw [h2, ← hskv, ← h1] at hklen
    omega
  · intro p hp
    rw [mem_hashCalls] at hp
    obtain ⟨kv, hkv, hklen, hpkv⟩ := hp
    exact ⟨kv.1, kv.2, hkv, hpkv, by omega⟩

/-- Witness for C6: a tree with one singleton bucket and one pair
bucket. -/
theorem claim_C6_witness :
    (∀ s ps, (s, ps) ∈ sizePass [⟨"s", [1], true, true⟩, ⟨"t", [2, 3], true, true⟩,
        ⟨"u", [4, 5], true, true⟩] → ps.length = 1 →
        ∀ p ∈ ps, p ∉ hashCalls (sizePass [⟨"s", [1], true, true⟩,
          ⟨"t", [2, 3], true, true⟩, ⟨"u", [4, 5], true, true⟩])) ∧
      (∀ p ∈ hashCalls (sizePass [⟨"s", [1], true, true⟩, ⟨"t", [2, 3], true, true⟩,
          ⟨"u", [4, 5], true, true⟩]),
        ∃ s ps, (s, ps) ∈ sizePass [⟨"s", [1], true, true⟩, ⟨"t", [2, 3], true, true⟩,
          ⟨"u", [4, 5], true, true⟩] ∧ p ∈ ps ∧ 2 ≤ ps.length) :=
  claim_C6 [⟨"s", [1], true, true⟩, ⟨"t", [2, 3], true, true⟩, ⟨"u", [4, 5], true, true⟩]
    (by decide)

/-! ### Claim C8: the hello/world scenario -/

/-- Claim C8: on the tree with `a.txt` and `b.txt` both holding the five
bytes of "hello" and `c.txt` holding "world", the output is exactly one
group with members a.txt and b.txt, and c.txt appears nowhere. -/
theorem claim_C8 (md5 : List Byte → String)
    (hneq : md5 [104, 101, 108, 108, 111] ≠ md5 [119, 111, 114, 108, 100]) :
    find_duplicates md5
        [⟨"a.txt", [104, 101, 108, 108, 111], true, true⟩,
         ⟨"b.txt", [104, 101, 108, 108, 111], true, true⟩,
         ⟨"c.txt", [119, 111, 114, 108, 100], true, true⟩] =
      [(md5 [104, 101, 108, 108, 111], ["a.txt", "b.txt"])] ∧
      ∀ kv ∈ find_duplicates md5
        [⟨"a.txt", [104, 101, 108, 108, 111], true, true⟩,
         ⟨"b.txt", [104, 101, 108, 108, 111], true, true⟩,
         ⟨"c.txt", [119, 111, 114, 108, 100], true, true⟩], "c.txt" ∉ kv.2 := by
  have hout : find_duplicates md5
      [⟨"a.txt", [104, 101, 108, 108, 111], true, true⟩,
       ⟨"b.txt", [104, 101, 108, 108, 111], true, true⟩,
       ⟨"c.txt", [119, 111, 114, 108, 100], true, true⟩] =
      [(md5 [104, 101, 108, 108, 111], ["a.txt", "b.txt"])] := by
    simp [find_duplicates, sizePass, sizeStep, hashPass, bucketStep, hashStep, addToBucket,
      lookupFile, fileSize, hash_file_default, List.find?_cons, List.filter_cons, hneq,
      Ne.symm hneq]
  refine ⟨hout, ?_⟩
  rw [hout]
  intro kv hkv
  rw [List.mem_singleton] at hkv
  rw [hkv]
  show "c.txt" ∉ ["a.txt", "b.txt"]
  decide

/-- Witness for C8 under a digest distinguishing the two contents. -/
theorem claim_C8_witness :
    ((fun c : List Byte => if c = [104, 101, 108, 108, 111] then "H" else "W")
        [104, 101, 108, 108, 111] ≠
      (fun c : List Byte => if c = [104, 101, 108, 108, 111] then "H" else "W")
        [119, 111, 114, 108, 100]) ∧
      (find_duplicates (fun c => if c = [104, 101, 108, 108, 111] then "H" else "W")
          [⟨"a.txt", [104, 101, 108, 108, 111], true, true⟩,
           ⟨"b.txt", [104, 101, 108, 108, 111], true, true⟩,
           ⟨"c.txt", [119, 111, 114, 108, 100], true, true⟩] =
        [((fun c : List Byte => if c = [104, 101, 108, 108, 111] then "H" else "W")
            [104, 101, 108, 108, 111], ["a.txt", "b.txt"])] ∧
        ∀ kv ∈ find_duplicates (fun c => if c = [104, 101, 108, 108, 111] then "H" else "W")
          [⟨"a.txt", [104, 101, 108, 108, 111], true, true⟩,
           ⟨"b.txt", [104, 101, 108, 108, 111], true, true⟩,
           ⟨"c.txt", [119, 111, 114, 108, 100], true, true⟩], "c.txt" ∉ kv.2) :=
  ⟨by decide,
    claim_C8 (fun c => if c = [104, 101, 108, 108, 111] then "H" else "W") (by decide)⟩

/-! ### Claim C7: per-entry failures -/

/-- Counterexample to C7 as stated: under a digest function that collides
across sizes, a read failure does more than skip the failing entry.  The
unreadable `x` keeps its size-1 bucket at two members, so its sibling `y`
is hashed and lands in the colliding group; on the tree without `x`, `y`
is alone in its bucket, is never hashed, and is absent from the output. -/
theorem claim_C7_counterexample :
    ((⟨"x", [9], true, false⟩ : FSFile).statOk = true ∧
      (⟨"x", [9], true, false⟩ : FSFile).readOk = false) ∧
      "y" ∈ groupOf (find_duplicates (fun _ => "k")
        [⟨"x", [9], true, false⟩, ⟨"y", [7], true, true⟩,
         ⟨"c", [1, 2], true, true⟩, ⟨"d", [1, 2], true, true⟩]) "k" ∧
      "y" ∉ groupOf (find_duplicates (fun _ => "k")
        [⟨"y", [7], true, true⟩, ⟨"c", [1, 2], true, true⟩,
         ⟨"d", [1, 2], true, true⟩]) "k" := by
  have hout1 : find_duplicates (fun _ => "k")
      [⟨"x", [9], true, false⟩, ⟨"y", [7], true, true⟩,
       ⟨"c", [1, 2], true, true⟩, ⟨"d", [1, 2], true, true⟩] =
      [("k", ["y", "c", "d"])] := by
    simp [find_duplicates, sizePass, sizeStep, hashPass, bucketStep, hashStep, addToBucket,
      lookupFile, fileSize, hash_file_default, List.find?_cons, List.filter_cons]
  have hout2 : find_duplicates (fun _ => "k")
      [⟨"y", [7], true, true⟩, ⟨"c", [1, 2], true, true⟩, ⟨"d", [1, 2], true, true⟩] =
      [("k", ["c", "d"])] := by
    simp [find_duplicates, sizePass, sizeStep, hashPass, bucketStep, hashStep, addToBucket,
      lookupFile, fileSize, hash_file_default, List.find?_cons, List.filter_cons]
  refine ⟨⟨rfl, rfl⟩, ?_, ?_⟩
  · rw [hout1]
    simp [groupOf, bucketGet]
  · rw [hout2]
    simp [groupOf, bucketGet]

/-- Claim C7 amended: provided the digest function never maps contents of
different lengths to the same digest (the spec's collision-freeness
assumption for MD5), an entry whose size stat or content read fails is
skipped — its path is in no group — and every group of the output is,
member for member, the group computed on the tree without that entry. -/
theorem claim_C7 (md5 : List Byte → String) (l1 l2 : List FSFile) (f : FSFile)
    (hm : ∀ c1 c2 : List Byte, md5 c1 = md5 c2 → c1.length = c2.length)
    (hnd : ((l1 ++ f :: l2).map FSFile.path).Nodup)
    (hfail : f.statOk = false ∨ f.readOk = false) :
    (∀ h, f.path ∉ groupOf (find_duplicates md5 (l1 ++ f :: l2)) h) ∧
      (∀ h p, p ∈ groupOf (find_duplicates md5 (l1 ++ f :: l2)) h ↔
        p ∈ groupOf (find_duplicates md5 (l1 ++ l2)) h) := by
  have hfmem : f ∈ l1 ++ f :: l2 := List.mem_append_right l1 (List.mem_cons_self f l2)
  have hnc : isContributor md5 (l1 ++ f :: l2) f = false := by
    unfold isContributor
    rcases hfail with hcase | hcase <;> simp [hcase]
  have partA : ∀ h, f.path ∉ groupOf (find_duplicates md5 (l1 ++ f :: l2)) h := by
    intro h hmemA
    rw [mem_groupOf_iff md5 _ hnd h f.path] at hmemA
    obtain ⟨⟨g, hg, hgp, hgc, _⟩, _⟩ := hmemA
    have hgf : g = f := path_inj _ hnd g f hg hfmem hgp
    rw [hgf, hnc] at hgc
    cases hgc
  refine ⟨partA, ?_⟩
  by_cases hsf : f.statOk = true
  · have hrf : f.readOk = false := by
      rcases hfail with hcase | hcase
      · rw [hsf] at hcase
        cases hcase
      · exact hcase
    have hcs3 : countSize (l1 ++ f :: l2) (fileSize f) =
        countSize (l1 ++ l2) (fileSize f) + 1 := by
      rw [countSize_middle]
      simp [hsf]
    have hcs2 : ∀ s, s ≠ fileSize f →
        countSize (l1 ++ f :: l2) s = countSize (l1 ++ l2) s := by
      intro s hs
      rw [countSize_middle]
      have hne : fileSize f ≠ s := fun hcon => hs hcon.symm
      simp [hne]
    by_cases hge : 1 < countSize (l1 ++ l2) (fileSize f)
    · have hcontrib : ∀ g, isContributor md5 (l1 ++ f :: l2) g =
          isContributor md5 (l1 ++ l2) g := by
        intro g
        unfold isContributor
        by_cases hsz : fileSize g = fileSize f
        · rw [hsz, hcs3]
          have hgt : 1 < countSize (l1 ++ l2) (fileSize f) + 1 := by omega
          simp [hgt, hge]
        · rw [hcs2 _ hsz]
      exact groupOf_congr md5 l1 l2 f hnd hcontrib hnc
    · have hndv : (l1 ++ f :: l2).Nodup := List.Nodup.of_map FSFile.path hnd
      have hnd' : ((l1 ++ l2).map FSFile.path).Nodup :=
        (((List.sublist_cons_self f l2).append_left l1).map FSFile.path).nodup hnd
      have hsize_of_digest : ∀ g1 g2 : FSFile,
          digestOf md5 g1 = digestOf md5 g2 → fileSize g1 = fileSize g2 := by
        intro g1 g2 hd
        unfold digestOf at hd
        rw [hash_file_default, hash_file_default] at hd
        exact hm _ _ hd
      have hb2b : ∀ g, fileSize g = fileSize f →
          isContributor md5 (l1 ++ l2) g = false := by
        intro g hsz
        unfold isContributor
        rw [hsz]
        simp [hge]
      have hb2a : ∀ g, fileSize g ≠ fileSize f →
          isContributor md5 (l1 ++ f :: l2) g = isContributor md5 (l1 ++ l2) g := by
        intro g hsz
        unfold isContributor
        rw [hcs2 _ hsz]
      have hb2d : ∀ (h : String) (g0 : FSFile),
          isContributor md5 (l1 ++ f :: l2) g0 = true → digestOf md5 g0 = h →
          fileSize g0 = fileSize f → countHash md5 (l1 ++ f :: l2) h ≤ 1 := by
        intro h g0 hc0 hd0 hsz0
        have himp : ∀ g2 : FSFile,
            (isContributor md5 (l1 ++ f :: l2) g2 && (digestOf md5 g2 == h)) = true →
            ((g2.statOk && (fileSize g2 == fileSize f)) && decide (g2 ≠ f)) = true := by
          intro g2 hg2
          rw [Bool.and_eq_true] at hg2
          obtain ⟨hc2, hd2⟩ := hg2
          rw [beq_iff_eq] at hd2
          have hsz2 : fileSize g2 = fileSize f := by
            rw [hsize_of_digest g2 g0 (by rw [hd2, hd0]), hsz0]
          have hst2 : g2.statOk = true := by
            unfold isContributor at hc2
            rw [Bool.and_eq_true, Bool.and_eq_true] at hc2
            exact hc2.1.1
          have hne2 : g2 ≠ f := by
            intro he
            rw [he, hnc] at hc2
            cases hc2
          simp [hst2, hsz2, hne2]
        have hle1 : countHash md5 (l1 ++ f :: l2) h ≤
            ((l1 ++ f :: l2).filter
              (fun g2 => (g2.statOk && (fileSize g2 == fileSize f)) &&
                decide (g2 ≠ f))).length := by
          unfold countHash
          exact length_filter_le_of_imp _ _ _ himp
        have heq1 : ((l1 ++ f :: l2).filter
            (fun g2 => (g2.statOk && (fileSize g2 == fileSize f)) &&
              decide (g2 ≠ f))).length + 1 =
            countSize (l1 ++ f :: l2) (fileSize f) := by
          unfold countSize
          exact length_filter_and_ne (l1 ++ f :: l2)
            (fun g2 => g2.statOk && (fileSize g2 == fileSize f)) f hndv hfmem
            (by simp [hsf])
        omega
      have hpred : ∀ (h : String) (gw : FSFile), digestOf md5 gw = h →
          fileSize gw ≠ fileSize f → ∀ g2 : FSFile,
          (isContributor md5 (l1 ++ f :: l2) g2 && (digestOf md5 g2 == h)) =
            (isContributor md5 (l1 ++ l2) g2 && (digestOf md5 g2 == h)) := by
        intro h gw hdw hszw g2
        by_cases hd2 : digestOf md5 g2 = h
        · have hsz2 : fileSize g2 ≠ fileSize f := by
            rw [hsize_of_digest g2 gw (by rw [hd2, hdw])]
            exact hszw
          rw [hb2a g2 hsz2]
        · have hbe : (digestOf md5 g2 == h) = false := by
            simp [hd2]
          rw [hbe]
          simp
      have hch : ∀ (h : String) (gw : FSFile), digestOf md5 gw = h →
          fileSize gw ≠ fileSize f →
          countHash md5 (l1 ++ f :: l2) h = countHash md5 (l1 ++ l2) h := by
        intro h gw hdw hszw
        unfold countHash
        rw [show (fun g2 => isContributor md5 (l1 ++ f :: l2) g2 && (digestOf md5 g2 == h)) =
            (fun g2 => isContributor md5 (l1 ++ l2) g2 && (digestOf md5 g2 == h)) from
          funext (hpred h gw hdw hszw)]
        rw [List.filter_append, List.filter_append, List.filter_cons]
        have hqf : (isContributor md5 (l1 ++ l2) f && (digestOf md5 f == h)) = false := by
          have hcf : isContributor md5 (l1 ++ l2) f = false := by
            unfold isContributor
            simp [hrf]
          rw [hcf]
          simp
        simp [hqf, List.length_append]
      intro h p
      rw [mem_groupOf_iff md5 _ hnd h p, mem_groupOf_iff md5 _ hnd' h p]
      constructor
      · rintro ⟨⟨g, hg, hgp, hgc, hgd⟩, hcnt⟩
        have hszg : fileSize g ≠ fileSize f := by
          intro hsz
          have := hb2d h g hgc hgd hsz
          omega
        have hgne : g ≠ f := by
          intro he
          rw [he, hnc] at hgc
          cases hgc
        have hgmem' : g ∈ l1 ++ l2 := by
          rcases List.mem_append.mp hg with h1 | h1
          · exact List.mem_append_left l2 h1
          · rcases List.mem_cons.mp h1 with h2 | h2
            · exact absurd h2 hgne
            · exact List.mem_append_right l1 h2
        refine ⟨⟨g, hgmem', hgp, ?_, hgd⟩, ?_⟩
        · rw [← hb2a g hszg]
          exact hgc
        · rw [← hch h g hgd hszg]
          exact hcnt
      · rintro ⟨⟨g, hg, hgp, hgc, hgd⟩, hcnt⟩
        have hszg : fileSize g ≠ fileSize f := by
          intro hsz
          rw [hb2b g hsz] at hgc
          cases hgc
        refine ⟨⟨g, ((List.sublist_cons_self f l2).append_left l1).subset hg, hgp,
          ?_, hgd⟩, ?_⟩
        · rw [hb2a g hszg]
          exact hgc
        · rw [hch h g hgd hszg]
          exact hcnt
  · have hsff : f.statOk = false := by
      revert hsf
      cases f.statOk <;> simp
    have hcs : ∀ s, countSize (l1 ++ f :: l2) s = countSize (l1 ++ l2) s := by
      intro s
      rw [countSize_middle]
      simp [hsff]
    have hcontrib : ∀ g, isContributor md5 (l1 ++ f :: l2) g =
        isContributor md5 (l1 ++ l2) g := by
      intro g
      unfold isContributor
      rw [hcs (fileSize g)]
    exact groupOf_congr md5 l1 l2 f hnd hcontrib hnc

/-- Witness for the amended C7: an unreadable entry among readable
duplicates, under a length-revealing digest. -/
theorem claim_C7_witness :
    (∀ h, "x" ∉ groupOf (find_duplicates (fun c => String.mk (List.replicate c.length 'b'))
        ([] ++ (⟨"x", [5], true, false⟩ : FSFile) ::
          [⟨"c", [1, 2], true, true⟩, ⟨"d", [1, 2], true, true⟩])) h) ∧
      (∀ h p, p ∈ groupOf (find_duplicates (fun c => String.mk (List.replicate c.length 'b'))
          ([] ++ (⟨"x", [5], true, false⟩ : FSFile) ::
            [⟨"c", [1, 2], true, true⟩, ⟨"d", [1, 2], true, true⟩])) h ↔
        p ∈ groupOf (find_duplicates (fun c => String.mk (List.replicate c.length 'b'))
          ([] ++ [⟨"c", [1, 2], true, true⟩, ⟨"d", [1, 2], true, true⟩])) h) :=
  claim_C7 (fun c => String.mk (List.replicate c.length 'b')) []
    [⟨"c", [1, 2], true, true⟩, ⟨"d", [1, 2], true, true⟩] ⟨"x", [5], true, false⟩
    (fun c1 c2 hh => by
      have h2 : List.replicate c1.length 'b' = List.replicate c2.length 'b' :=
        congrArg String.data hh
      have h3 := congrArg List.length h2
      simpa using h3)
    (by decide) (Or.inr rfl)

end FindDuplicates
